import Mathlib

/-!
Shallow embedding of the structural-analysis engine of `friendlycode`:
the scoring/aggregation pipeline (`src/scoring.ts`, rubric from
`src/config.ts`) and the import-graph analyzers
(`src/analyzers/static/explicitness.ts`).

JavaScript numbers are modelled as rationals (`ℚ`), JS `Map`/`Set` as
insertion-ordered association lists / duplicate-free lists, and the
stable `Array.prototype.sort` as a stable insertion sort.  Recursion that
the source runs on mutable state is threaded explicitly; unbounded
recursion is given explicit fuel that provably suffices on the inputs of
interest.
-/

/-- Severity levels of a finding, from `analyzers/types.ts`. -/
inductive Severity where
  | info
  | warning
  | error
  deriving DecidableEq, Repr

/-- Finding record, from `analyzers/types.ts` (`value` is an optional number). -/
structure Finding where
  file : String
  line : Option Nat := none
  message : String
  severity : Severity
  value : Option ℚ := none
  deriving DecidableEq, Repr

/-- SubIssueResult record, from `analyzers/types.ts`.  The optional
`excluded` flag of the TypeScript type is modelled as a `Bool` whose
default `false` plays the role of `undefined`. -/
structure SubIssueResult where
  id : String
  score : ℚ
  findings : List Finding
  summary : String
  excluded : Bool := false
  deriving DecidableEq, Repr

/-- CategoryResult record, from `analyzers/types.ts`. -/
structure CategoryResult where
  id : Nat
  name : String
  score : ℚ
  subIssues : List SubIssueResult
  deriving DecidableEq, Repr

/-- Recommendation record, from `analyzers/types.ts` (`file`/`line` optional). -/
structure Recommendation where
  priority : Nat
  category : String
  subIssue : String
  message : String
  file : Option String := none
  line : Option Nat := none
  impact : ℚ
  deriving DecidableEq, Repr

/-- Sub-issue definition from `config.ts` (rubric configuration).  The
`description` and `analysisType` fields of the TypeScript type are not
read by the scoring pipeline and are omitted. -/
structure SubIssueDef where
  id : String
  name : String
  deriving DecidableEq, Repr

/-- Category definition from `config.ts`. -/
structure CategoryDef where
  id : Nat
  name : String
  subIssues : List SubIssueDef
  deriving DecidableEq, Repr

/-- Result of `aggregateScores`. -/
structure AggregateResult where
  categories : List CategoryResult
  overallScore : ℚ
  recommendations : List Recommendation
  deriving DecidableEq, Repr

/-- JavaScript `Math.round`: round to nearest, ties toward positive infinity. -/
def jsRound (q : ℚ) : ℤ := ⌊q + 1 / 2⌋

/-- The recurring `Math.round(x * 100) / 100` idiom: round to two decimals. -/
def round2 (q : ℚ) : ℚ := (jsRound (q * 100) : ℚ) / 100

/-- JavaScript `Map.set`: overwrite an existing key in place, else append. -/
def jsMapSet {α : Type} (m : List (String × α)) (k : String) (v : α) :
    List (String × α) :=
  if m.any (fun p => p.1 = k) then
    m.map (fun p => if p.1 = k then (k, v) else p)
  else
    m ++ [(k, v)]

/-- JavaScript `Set.add`: append if not already present. -/
def jsSetAdd (s : List String) (x : String) : List String :=
  if s.contains x then s else s ++ [x]

/-- Stable insert for a descending insertion sort keyed by `key`:
the inserted element goes in front of the first element whose key is not
greater, so elements with equal keys keep their input order. -/
def insertByDesc {α : Type} (key : α → ℚ) (x : α) : List α → List α
  | [] => [x]
  | y :: ys => if key x < key y then y :: insertByDesc key x ys else x :: y :: ys

/-- Stable descending sort keyed by `key`; models the JavaScript
`arr.sort((a, b) => key(b) - key(a))`, which is stable per the ECMAScript
specification. -/
def stableSortByDesc {α : Type} (key : α → ℚ) : List α → List α
  | [] => []
  | x :: xs => insertByDesc key x (stableSortByDesc key xs)

/-- The rubric from `config.ts`: ten categories with their sub-issues. -/
def categories : List CategoryDef := [
  ⟨1, "Consistent Patterns", [
    ⟨"1.1", "Structural consistency across similar files"⟩,
    ⟨"1.2", "Consistent error handling"⟩,
    ⟨"1.3", "Naming convention consistency"⟩,
    ⟨"1.4", "Consistent API patterns"⟩,
    ⟨"1.5", "Test pattern consistency"⟩]⟩,
  ⟨2, "Explicit Over Implicit", [
    ⟨"2.1", "Metaprogramming avoidance"⟩,
    ⟨"2.2", "Decorator count"⟩,
    ⟨"2.3", "Implicit dependency injection"⟩,
    ⟨"2.4", "Convention-based routing"⟩,
    ⟨"2.5", "Prototype mutation"⟩,
    ⟨"2.6", "Dynamic property access"⟩]⟩,
  ⟨3, "Strong Typing", [
    ⟨"3.1", "any type usage"⟩,
    ⟨"3.2", "Untyped function signatures"⟩,
    ⟨"3.4", "Domain entity types"⟩,
    ⟨"3.5", "Type assertions"⟩,
    ⟨"3.6", "Typed config objects"⟩]⟩,
  ⟨4, "Predictable File Structure", [
    ⟨"4.1", "Domain organization"⟩,
    ⟨"4.2", "File naming conventions"⟩,
    ⟨"4.3", "Test colocation"⟩,
    ⟨"4.4", "File length"⟩,
    ⟨"4.5", "Directory nesting depth"⟩,
    ⟨"4.6", "Exports per file"⟩]⟩,
  ⟨5, "Small Focused Units", [
    ⟨"5.1", "Function length"⟩,
    ⟨"5.2", "Parameter count"⟩,
    ⟨"5.3", "Boolean parameters"⟩,
    ⟨"5.4", "Single responsibility"⟩,
    ⟨"5.5", "Module focus"⟩,
    ⟨"5.6", "Nesting depth"⟩]⟩,
  ⟨6, "Clean Signal-to-Noise", [
    ⟨"6.1", "Dead exports"⟩,
    ⟨"6.2", "Commented-out code"⟩,
    ⟨"6.3", "Unnecessary duplication"⟩,
    ⟨"6.4", "Stale TODOs"⟩,
    ⟨"6.5", "Boilerplate ratio"⟩,
    ⟨"6.6", "Unnecessary abstraction"⟩,
    ⟨"6.7", "Config minimality"⟩]⟩,
  ⟨7, "Good Naming", [
    ⟨"7.1", "Descriptive names"⟩,
    ⟨"7.2", "Name uniqueness"⟩,
    ⟨"7.3", "Boolean variable prefixes"⟩,
    ⟨"7.4", "Function verb prefixes"⟩,
    ⟨"7.5", "Short identifiers"⟩,
    ⟨"7.6", "Consistent domain language"⟩]⟩,
  ⟨8, "Architectural Documentation", [
    ⟨"8.1", "README/CLAUDE.md existence"⟩,
    ⟨"8.2", "Documented conventions"⟩,
    ⟨"8.3", "Documented business rules"⟩,
    ⟨"8.4", "Documented data flow"⟩,
    ⟨"8.5", "Migration context"⟩,
    ⟨"8.6", "Docs close to code"⟩]⟩,
  ⟨9, "Tests", [
    ⟨"9.1", "Tests as documentation"⟩,
    ⟨"9.2", "Test file existence ratio"⟩,
    ⟨"9.3", "Test determinism"⟩,
    ⟨"9.4", "Test isolation"⟩,
    ⟨"9.5", "Test description quality"⟩,
    ⟨"9.6", "Fixture simplicity"⟩,
    ⟨"9.7", "Edge case coverage"⟩]⟩,
  ⟨10, "Shallow Dependencies", [
    ⟨"10.1", "Inheritance depth"⟩,
    ⟨"10.3", "Circular dependencies"⟩,
    ⟨"10.4", "Barrel file count"⟩,
    ⟨"10.5", "Cross-module side effects"⟩,
    ⟨"10.6", "Max import depth"⟩,
    ⟨"10.7", "Files per feature"⟩]⟩]

/-- Building of `resultMap` in `aggregateScores`: a JS `Map` filled with
`resultMap.set(r.id, r)` over the input list in order. -/
def buildResultMap (subIssueResults : List SubIssueResult) :
    List (String × SubIssueResult) :=
  subIssueResults.foldl (fun m r => jsMapSet m r.id r) []

/-- Placeholder used by `aggregateScores` for a sub-issue id with no
supplied result. -/
def defaultSubIssueResult (id : String) : SubIssueResult :=
  { id := id, score := 0, findings := [], summary := "Not evaluated",
    excluded := true }

/-- Resolution of one rubric sub-issue against the result map:
`resultMap.get(si.id) ?? { id: si.id, score: 0, excluded: true, ... }`. -/
def resolveSubIssue (m : List (String × SubIssueResult)) (si : SubIssueDef) :
    SubIssueResult :=
  (List.lookup si.id m).getD (defaultSubIssueResult si.id)

/-- Body of the per-category loop of `aggregateScores`: resolve the
sub-issues, score only the evaluated (non-excluded) ones, round to two
decimals. -/
def categoryResultFor (m : List (String × SubIssueResult)) (cat : CategoryDef) :
    CategoryResult :=
  let subIssues := cat.subIssues.map (resolveSubIssue m)
  let evaluated := subIssues.filter (fun si => !si.excluded)
  let categoryScore : ℚ :=
    if 0 < evaluated.length then
      evaluated.foldl
        (fun sum si => sum + si.score * (10 / (evaluated.length : ℚ))) 0
    else 0
  { id := cat.id, name := cat.name, score := round2 categoryScore,
    subIssues := subIssues }

/-- Lookup of a sub-issue display name in the rubric (`getSubIssueName`). -/
def getSubIssueName (cats : List CategoryDef) (id : String) : String :=
  match cats.findSome? (fun cat =>
    cat.subIssues.findSome? (fun si =>
      if si.id == id then some si.name else none)) with
  | some n => n
  | none => id

/-- One recommendation of `generateRecommendations`: built from the
sub-issue's top finding when findings exist, otherwise from its summary;
the impact is the rounded potential gain `(1 - score) * (10 / n)` with
`n` the evaluated count of the sub-issue's category. -/
def recOfSubIssue (cats : List CategoryDef) (catName : String) (n : Nat)
    (si : SubIssueResult) : Recommendation :=
  let potentialGain := (1 - si.score) * (10 / (n : ℚ))
  match si.findings with
  | topFinding :: _ =>
    { priority := 0, category := catName,
      subIssue := getSubIssueName cats si.id,
      message := topFinding.message,
      file := if topFinding.file == "" then none else some topFinding.file,
      line := topFinding.line,
      impact := round2 potentialGain }
  | [] =>
    { priority := 0, category := catName,
      subIssue := getSubIssueName cats si.id,
      message := si.summary,
      impact := round2 potentialGain }

/-- Recommendations contributed by one category in
`generateRecommendations`: the `continue` for scores at or above 0.8 is
the `none` branch of the `filterMap`, and `n` is the number of evaluated
sub-issues of this category. -/
def recsForCategory (cats : List CategoryDef) (cat : CategoryResult) :
    List Recommendation :=
  let evaluated := cat.subIssues.filter (fun si => !si.excluded)
  evaluated.filterMap (fun si =>
    if si.score ≥ 0.8 then none
    else some (recOfSubIssue cats cat.name evaluated.length si))

/-- Embedding of `generateRecommendations`: pool the per-category
recommendations, sort them descending by impact with the stable JS sort,
assign dense priorities `1..`, and keep the first 30. -/
def generateRecommendations (cats : List CategoryDef)
    (categoryResults : List CategoryResult) : List Recommendation :=
  let recommendations := categoryResults.flatMap (recsForCategory cats)
  let sorted := stableSortByDesc (fun r => r.impact) recommendations
  ((sorted.enum.map (fun p => { p.2 with priority := p.1 + 1 })).take 30)

/-- Embedding of `aggregateScores` parametrised by the rubric (the source
reads the rubric from the module-level `categories` constant). -/
def aggregateScoresWith (cats : List CategoryDef)
    (subIssueResults : List SubIssueResult) : AggregateResult :=
  let resultMap := buildResultMap subIssueResults
  let categoryResults := cats.map (categoryResultFor resultMap)
  let overallScore :=
    round2 (categoryResults.foldl (fun sum c => sum + c.score) 0)
  { categories := categoryResults, overallScore := overallScore,
    recommendations := generateRecommendations cats categoryResults }

/-- The exported `aggregateScores` of `scoring.ts`, over the configured
rubric. -/
def aggregateScores (subIssueResults : List SubIssueResult) : AggregateResult :=
  aggregateScoresWith categories subIssueResults

/-- One `import` declaration of a parsed source file: the raw module
specifier text and the project-relative path it resolves to, if any
(`getModuleSpecifierSourceFile()` returning a file).  External packages
and unresolvable specifiers resolve to `none`. -/
structure ImportRec where
  specifier : String
  resolved : Option String
  deriving DecidableEq, Repr

/-- The slice of a ts-morph `SourceFile` read by the import-graph
analyzers: its project-relative path, its import declarations, and the
counts of export declarations and top-level statements used by the
barrel-file detector. -/
structure SourceFileRec where
  path : String
  imports : List ImportRec
  exportDeclCount : Nat
  stmtCount : Nat
  deriving DecidableEq, Repr

/-- Import graph: file path to insertion-ordered set of imported paths. -/
abbrev ImportGraph := List (String × List String)

/-- JavaScript `s.startsWith(".")`. -/
def startsWithDot (s : String) : Bool :=
  match s.data with
  | [] => false
  | c :: _ => c == '.'

/-- Edge set for one file in `buildImportGraph`: keep only relative
(`.`-prefixed) specifiers that resolve to a source file, deduplicated by
the JS `Set`. -/
def fileEdges (f : SourceFileRec) : List String :=
  f.imports.foldl (fun s imp =>
    if startsWithDot imp.specifier then
      match imp.resolved with
      | some t => jsSetAdd s t
      | none => s
    else s) []

/-- Embedding of `buildImportGraph`: one `Map.set` per input file. -/
def buildImportGraph (files : List SourceFileRec) : ImportGraph :=
  files.foldl (fun g f => jsMapSet g f.path (fileEdges f)) []

/-- Key list of the graph (JS `graph.keys()` in insertion order). -/
def graphKeys (g : ImportGraph) : List String := g.map (fun p => p.1)

/-- JavaScript `graph.get(node)` with the `if (deps)` guard: a missing
key behaves like an empty dependency set. -/
def graphDeps (g : ImportGraph) (f : String) : List String :=
  (List.lookup f g).getD []

/-- Traversal state of the cycle-detection DFS: the `visited` and
`inStack` sets and the accumulated cycle list, all mutated in place by
the source. -/
structure DfsState where
  visited : List String
  inStack : List String
  cycles : List (List String)
  deriving DecidableEq, Repr

/-- Embedding of the recursive `dfs` of `analyzeCircularDeps`.  The
`pathStack` is copied into recursive calls (`[...pathStack]`) while the
sets and the cycle list are shared state.  Fuel makes the recursion
structural; `findCycles` supplies enough for its graph. -/
def cycleDfs (g : ImportGraph) : Nat → String → List String → DfsState → DfsState
  | 0, _, _, s => s
  | fuel + 1, node, pathStack, s =>
    if s.inStack.contains node then
      match pathStack.findIdx? (fun x => x == node) with
      | some cycleStart =>
        let cycle := pathStack.drop cycleStart ++ [node]
        if s.cycles.length < 50 then { s with cycles := s.cycles ++ [cycle] }
        else s
      | none => s
    else if s.visited.contains node then s
    else
      let s1 : DfsState :=
        { s with visited := s.visited ++ [node], inStack := s.inStack ++ [node] }
      let pathStack1 := pathStack ++ [node]
      let deps := graphDeps g node
      let s2 := deps.foldl (fun acc dep => cycleDfs g fuel dep pathStack1 acc) s1
      { s2 with inStack := s2.inStack.erase node }

/-- The cycle list accumulated by `analyzeCircularDeps`: a DFS from every
key, clearing `visited` and `inStack` before each start and stopping
once 50 cycles are collected (the `break` is modelled by skipping the
remaining starts, which the accumulator check makes equivalent). -/
def findCycles (g : ImportGraph) : List (List String) :=
  (g.foldl (fun acc p =>
    if acc.length ≥ 50 then acc
    else (cycleDfs g (g.length + 1) p.1 []
      { visited := [], inStack := [], cycles := acc }).cycles) [])

/-- Embedding of `analyzeCircularDeps` (sub-issue 10.3). -/
def analyzeCircularDeps (g : ImportGraph) : SubIssueResult :=
  let cycles := findCycles g
  let findings := (cycles.take 20).map (fun cycle =>
    ({ file := cycle.headD (""),
       message := "Circular dependency: " ++ String.intercalate (" → ") cycle,
       severity := Severity.error } : Finding))
  let totalFiles := g.length
  let filesInCycles := cycles.flatten.dedup.length
  let score : ℚ :=
    if 0 < totalFiles then
      max 0 (1 - (filesInCycles : ℚ) / (totalFiles : ℚ) * 5)
    else 1
  { id := "10.3", score := max 0 (min 1 score), findings := findings,
    summary := toString cycles.length ++
      " circular dependency cycles found involving " ++
      toString filesInCycles ++ " files" }

/-- Base name of a path (`path.basename`): the part after the last `/`. -/
def baseName (s : String) : String :=
  String.mk ((s.data.reverse.takeWhile (fun c => !(c == '/'))).reverse)

/-- The barrel test applied by `analyzeBarrelFiles` to an index-named
file: `exportDecls.length > 0 && exportDecls.length >= stmtCount * 0.5`. -/
def isBarrel (f : SourceFileRec) : Bool :=
  decide (0 < f.exportDeclCount) &&
  decide ((f.exportDeclCount : ℚ) ≥ (f.stmtCount : ℚ) * 0.5)

/-- Index-name filter of `analyzeBarrelFiles` (the `continue`). -/
def isIndexName (p : String) : Bool :=
  baseName p == "index.ts" || baseName p == "index.tsx"

/-- Embedding of `analyzeBarrelFiles` (sub-issue 10.4). -/
def analyzeBarrelFiles (files : List SourceFileRec) : SubIssueResult :=
  let barrels := files.filter (fun f => isIndexName f.path && isBarrel f)
  let findings := barrels.map (fun f =>
    ({ file := f.path,
       message := f.path ++ " is a barrel file with " ++
         toString f.exportDeclCount ++ " re-exports — adds import indirection",
       severity := if 10 < f.exportDeclCount then Severity.warning
                   else Severity.info,
       value := some (f.exportDeclCount : ℚ) } : Finding))
  let barrelCount := barrels.length
  let totalFiles := files.length
  let score : ℚ :=
    if 0 < totalFiles then
      max 0 (1 - (barrelCount : ℚ) / (totalFiles : ℚ) * 10)
    else 1
  { id := "10.4", score := max 0 (min 1 score),
    findings :=
      (stableSortByDesc (fun fi => fi.value.getD 0) findings).take 20,
    summary := toString barrelCount ++ " barrel/index files found" }

/-- Embedding of the recursive `getDepth` of `analyzeMaxImportDepth`.
The result triple is the returned depth together with the `visited` set
and the `depths` memo map, both mutated in place by the source.  The
source deletes the current file from `visited` on the chain path but not
on the leaf path, which this embedding reproduces.  Fuel makes the
recursion structural; `computeDepths` supplies enough for acyclic
graphs. -/
def getDepth (g : ImportGraph) :
    Nat → String → List String → List (String × Nat) →
    Nat × List String × List (String × Nat)
  | 0, _, visited, depths => (0, visited, depths)
  | fuel + 1, file, visited, depths =>
    if visited.contains file then (0, visited, depths)
    else
      match List.lookup file depths with
      | some d => (d, visited, depths)
      | none =>
        let visited1 := visited ++ [file]
        let deps := graphDeps g file
        if deps.isEmpty then (0, visited1, jsMapSet depths file 0)
        else
          let acc := deps.foldl (fun acc dep =>
            let r := getDepth g fuel dep acc.2.1 acc.2.2
            (max acc.1 r.1, r.2.1, r.2.2)) (0, visited1, depths)
          (acc.1 + 1, acc.2.1.erase file, jsMapSet acc.2.2 file (acc.1 + 1))

/-- All node names occurring in the graph, keys and edge targets alike,
without duplicates.  Used only to size the fuel of `computeDepths`. -/
def graphNodes (g : ImportGraph) : List String :=
  (g.map (fun p => p.1) ++ (g.map (fun p => p.2)).flatten).dedup

/-- The `depths` map after the main loop of `analyzeMaxImportDepth`:
`getDepth(file, new Set())` from every key, with the memo map carried
across starts. -/
def computeDepths (g : ImportGraph) : List (String × Nat) :=
  g.foldl (fun depths p =>
    (getDepth g ((graphNodes g).length + 1) p.1 [] depths).2.2) []

/-- Reference depth function for acyclic graphs, by fuel only (no memo,
no visited set): a file with no dependencies has depth 0, any other
`1 + max` over its dependencies.  For fuel exceeding the rank of a node
the value is stable and satisfies exactly that recurrence. -/
def depthSpec (g : ImportGraph) : Nat → String → Nat
  | 0, _ => 0
  | fuel + 1, f =>
    let deps := graphDeps g f
    if deps.isEmpty then 0
    else 1 + (deps.map (depthSpec g fuel)).foldl max 0

/-- Rank of a node derived from an edge-decreasing measure `r`: the
number of graph nodes with strictly smaller `r`.  It is edge-decreasing
whenever `r` is, and is bounded by the node count, which gives fuel
bounds for `getDepth` on acyclic graphs. -/
def nodeRank (g : ImportGraph) (r : String → Nat) (f : String) : Nat :=
  ((graphNodes g).filter (fun x => decide (r x < r f))).length

/-- Canonical depth of a node of an acyclic graph, computed with just
enough fuel. -/
def trueDepth (g : ImportGraph) (r : String → Nat) (f : String) : Nat :=
  depthSpec g (nodeRank g r f + 1) f

/-- Entry-file name patterns of `analyzeFilesPerFeature`. -/
def entryPatterns : List String :=
  ["resource", "route", "handler", "controller", "endpoint"]

/-- ASCII lower-casing of one character (`toLowerCase` on the path
characters that the entry patterns can match). -/
def lowerChar (c : Char) : Char :=
  if 'A' ≤ c && c ≤ 'Z' then Char.ofNat (c.toNat + 32) else c

/-- Lower-cased copy of a string. -/
def lowerStr (s : String) : String := String.mk (s.data.map lowerChar)

/-- Character-list prefix test. -/
def charsMatch : List Char → List Char → Bool
  | [], _ => true
  | _ :: _, [] => false
  | c :: cs, d :: ds => c == d && charsMatch cs ds

/-- Character-list substring test. -/
def charsContain (s p : List Char) : Bool :=
  if charsMatch p s then true
  else
    match s with
    | [] => false
    | _ :: rest => charsContain rest p

/-- JavaScript `f.toLowerCase().includes(p)`. -/
def strIncludes (f p : String) : Bool := charsContain (lowerStr f).data p.data

/-- The entry files selected by `analyzeFilesPerFeature`. -/
def entryFiles (g : ImportGraph) : List String :=
  (graphKeys g).filter (fun f => entryPatterns.any (fun p => strIncludes f p))

/-- Embedding of the `while (queue.length > 0)` closure loop of
`analyzeFilesPerFeature`; `queue.pop()` takes from the end of the
array.  Fuel-bounded; the fuel below covers every terminating run that
the analyzer performs. -/
def closureLoop (g : ImportGraph) : Nat → List String → List String → List String
  | 0, _, visited => visited
  | _ + 1, [], visited => visited
  | fuel + 1, queue, visited =>
    let current := (queue.getLast?).getD ("")
    let rest := queue.dropLast
    if visited.contains current then closureLoop g fuel rest visited
    else closureLoop g fuel (rest ++ graphDeps g current) (visited ++ [current])

/-- Transitive-import count of one entry file (`visited.size` after the
loop). -/
def transitiveImportCount (g : ImportGraph) (entry : String) : Nat :=
  (closureLoop g
    (((g.map (fun p => p.2.length)).sum + g.length + 2) *
      ((graphNodes g).length + 2))
    [entry] []).length

/-- Embedding of `analyzeFilesPerFeature` (sub-issue 10.7). -/
def analyzeFilesPerFeature (g : ImportGraph) : SubIssueResult :=
  let transitiveImports := (entryFiles g).map
    (fun e => (e, transitiveImportCount g e))
  let sorted := stableSortByDesc (fun p => (p.2 : ℚ)) transitiveImports
  let findings := (sorted.take 20).filterMap (fun p =>
    if 15 < p.2 then
      some ({ file := p.1,
              message := p.1 ++ " transitively imports " ++ toString p.2 ++
                " files — understanding this feature requires reading many files",
              severity := if 30 < p.2 then Severity.error else Severity.warning,
              value := some (p.2 : ℚ) } : Finding)
    else none)
  let avgImports : ℚ :=
    if 0 < sorted.length then
      ((sorted.map (fun p => (p.2 : ℚ))).sum) / (sorted.length : ℚ)
    else 0
  let score : ℚ :=
    if avgImports ≤ 5 then 1
    else if avgImports ≤ 10 then 0.8
    else if avgImports ≤ 20 then 0.5
    else 0.2
  { id := "10.7", score := score, findings := findings,
    summary := "Entry-point files average " ++ toString (jsRound avgImports) ++
      " transitive imports" }


/-- The three-file cycle graph of C1. -/
def gTriangle : ImportGraph :=
  [("A.ts", ["B.ts"]), ("B.ts", ["C.ts"]), ("C.ts", ["A.ts"])]
/-- A one-file graph with no entry-like file name. -/
def gNoEntries : ImportGraph := [("a.ts", [])]
/-- The diamond graph of C7. -/
def gDiamond : ImportGraph :=
  [("A.ts", ["B.ts", "C.ts"]), ("B.ts", ["D.ts"]), ("C.ts", ["D.ts"]),
   ("D.ts", [])]
/-- An edge-decreasing measure for the diamond graph. -/
def rDiamond : String → Nat := fun s =>
  if s = "A.ts" then 2 else if s = "D.ts" then 0 else 1
/-- Sample input for the C2 witness: one file with a duplicated relative
import, an external package import, and an unresolved import; and one
file with no imports. -/
def sampleFiles : List SourceFileRec :=
  [⟨"a.ts", [⟨"./b", some ("b.ts")⟩, ⟨"./b", some ("b.ts")⟩,
    ⟨"react", none⟩, ⟨"./missing", none⟩], 0, 0⟩,
   ⟨"b.ts", [], 0, 0⟩]
/-- Memo-map invariant: every memoised depth is the canonical depth. -/
def DepthInv (g : ImportGraph) (r : String → Nat)
    (dp : List (String × Nat)) : Prop :=
  ∀ x d, List.lookup x dp = some d → d = trueDepth g r x

/-- The dependency fold inside `getDepth`, named for the proofs. -/
def getDepthFold (g : ImportGraph) (N : Nat) (deps : List String)
    (acc : Nat × List String × List (String × Nat)) :
    Nat × List String × List (String × Nat) :=
  deps.foldl (fun acc dep =>
    let rr := getDepth g N dep acc.2.1 acc.2.2
    (max acc.1 rr.1, rr.2.1, rr.2.2)) acc
/-- Postcondition of one `getDepth` call on an acyclic graph: the
returned depth is the canonical depth, `visited` only grows by nodes
memoised at 0, the memo map grows monotonically and stays correct, and
the call memoises its own node unless it was already on `visited`. -/
def GetDepthContract (g : ImportGraph) (r : String → Nat) (N : Nat)
    (f : String) (vis : List String) (dp : List (String × Nat)) : Prop :=
  (getDepth g N f vis dp).1 = trueDepth g r f ∧
  (∃ ext, (getDepth g N f vis dp).2.1 = vis ++ ext ∧
    ∀ x ∈ ext, List.lookup x (getDepth g N f vis dp).2.2 = some 0) ∧
  (∀ x d, List.lookup x dp = some d →
    List.lookup x (getDepth g N f vis dp).2.2 = some d) ∧
  DepthInv g r (getDepth g N f vis dp).2.2 ∧
  (f ∉ vis → List.lookup f (getDepth g N f vis dp).2.2 =
    some (trueDepth g r f))

/-! Helper lemmas about the JS `Map`/`Set` embeddings. -/

theorem lookup_cons' (a k : String) (b : α) (m : List (String × α)) :
    List.lookup k ((a, b) :: m) = if k = a then some b else List.lookup k m := by
  by_cases h : k = a
  · subst h
    simp [List.lookup]
  · have hb : (k == a) = false := by simp [h]
    simp [List.lookup, hb, h]

theorem lookup_overwrite (m : List (String × α)) (k k' : String) (v : α) :
    List.lookup k' (m.map (fun p => if p.1 = k then (k, v) else p)) =
      if k' = k then
        (if m.any (fun p => p.1 = k) then some v else none)
      else List.lookup k' m := by
  induction m with
  | nil => by_cases hk : k' = k <;> simp [hk]
  | cons p m ih =>
    rcases p with ⟨a, b⟩
    by_cases hp : a = k
    · subst hp
      by_cases hk : k' = a <;> simp [lookup_cons', hk, ih]
    · by_cases hk2 : k' = a
      · subst hk2
        simp [lookup_cons', hp, ih, Ne.symm hp]
      · by_cases hk : k' = k
        · subst hk
          have hd : (decide (a = k') : Bool) = false := by
            simpa using hp
          simp [lookup_cons', hp, hk2, Ne.symm hp, ih]
          rw [hd, Bool.false_or]
        · simp [lookup_cons', hp, hk2, hk, ih]

theorem lookup_append_one (m : List (String × α)) (k k' : String) (v : α) :
    List.lookup k' (m ++ [(k, v)]) =
      (List.lookup k' m).or (if k' = k then some v else none) := by
  induction m with
  | nil => by_cases hk : k' = k <;> simp [lookup_cons', hk]
  | cons p m ih =>
    rcases p with ⟨a, b⟩
    by_cases h : k' = a <;> simp [List.cons_append, lookup_cons', h, ih]

theorem lookup_not_found (m : List (String × α)) (k : String)
    (h : m.any (fun p => p.1 = k) = false) : List.lookup k m = none := by
  induction m with
  | nil => simp
  | cons p m ih =>
    rcases p with ⟨a, b⟩
    simp only [List.any_cons, Bool.or_eq_false_iff, decide_eq_false_iff_not] at h
    have : ¬k = a := fun hh => h.1 (by simp [hh])
    simp [lookup_cons', this, ih h.2]

theorem lookup_jsMapSet (m : List (String × α)) (k k' : String) (v : α) :
    List.lookup k' (jsMapSet m k v) =
      if k' = k then some v else List.lookup k' m := by
  unfold jsMapSet
  by_cases h : m.any (fun p => p.1 = k) = true
  · rw [if_pos h, lookup_overwrite, h]
    simp
  · have h0 := Bool.eq_false_iff.mpr h
    rw [if_neg h, lookup_append_one]
    by_cases hk : k' = k
    · subst hk
      rw [lookup_not_found m k' h0]
      simp
    · simp [hk]

theorem mem_jsSetAdd (s : List String) (t x : String) :
    x ∈ jsSetAdd s t ↔ x ∈ s ∨ x = t := by
  unfold jsSetAdd
  by_cases h : s.contains t = true
  · rw [if_pos h]
    constructor
    · exact Or.inl
    · rintro (hx | rfl)
      · exact hx
      · simpa using h
  · rw [if_neg h]
    simp

theorem nodup_jsSetAdd (s : List String) (t : String) (h : s.Nodup) :
    (jsSetAdd s t).Nodup := by
  unfold jsSetAdd
  by_cases hc : s.contains t = true
  · rwa [if_pos hc]
  · rw [if_neg hc]
    have ht : t ∉ s := by
      intro hm
      exact hc (by simpa using hm)
    simp [List.nodup_append, h, ht]

theorem jsMapSet_of_fresh (m : List (String × α)) (k : String) (v : α)
    (h : ∀ p ∈ m, p.1 ≠ k) : jsMapSet m k v = m ++ [(k, v)] := by
  unfold jsMapSet
  rw [if_neg]
  simp only [List.any_eq_true, decide_eq_true_eq]
  rintro ⟨p, hp, hpk⟩
  exact h p hp hpk

/-! Helper lemmas about the stable descending sort. -/

theorem mem_insertByDesc {α : Type} (key : α → ℚ) (x a : α) (l : List α) :
    a ∈ insertByDesc key x l ↔ a = x ∨ a ∈ l := by
  induction l with
  | nil => simp [insertByDesc]
  | cons y ys ih =>
    by_cases h : key x < key y
    · simp only [insertByDesc, if_pos h, List.mem_cons, ih]
      tauto
    · simp only [insertByDesc, if_neg h, List.mem_cons]

theorem length_insertByDesc {α : Type} (key : α → ℚ) (x : α) (l : List α) :
    (insertByDesc key x l).length = l.length + 1 := by
  induction l with
  | nil => simp [insertByDesc]
  | cons y ys ih =>
    by_cases h : key x < key y <;>
      simp [insertByDesc, h, ih]

theorem perm_insertByDesc {α : Type} (key : α → ℚ) (x : α) (l : List α) :
    (insertByDesc key x l).Perm (x :: l) := by
  induction l with
  | nil => simp [insertByDesc]
  | cons y ys ih =>
    by_cases h : key x < key y
    · simp only [insertByDesc, if_pos h]
      exact (ih.cons y).trans (List.Perm.swap x y ys)
    · simp [insertByDesc, if_neg h]

theorem pairwise_insertByDesc {α : Type} (key : α → ℚ) (x : α) (l : List α)
    (h : l.Pairwise (fun a b => key b ≤ key a)) :
    (insertByDesc key x l).Pairwise (fun a b => key b ≤ key a) := by
  induction l with
  | nil => simp [insertByDesc]
  | cons y ys ih =>
    rw [List.pairwise_cons] at h
    by_cases hlt : key x < key y
    · rw [insertByDesc, if_pos hlt, List.pairwise_cons]
      constructor
      · intro z hz
        rcases (mem_insertByDesc key x z ys).mp hz with rfl | hz
        · exact le_of_lt hlt
        · exact h.1 z hz
      · exact ih h.2
    · rw [insertByDesc, if_neg hlt, List.pairwise_cons]
      constructor
      · intro z hz
        rcases List.mem_cons.mp hz with rfl | hz
        · exact le_of_not_lt hlt
        · exact (h.1 z hz).trans (le_of_not_lt hlt)
      · exact List.pairwise_cons.mpr h

theorem filter_insertByDesc {α : Type} (key : α → ℚ) (q : ℚ) (x : α)
    (l : List α) :
    (insertByDesc key x l).filter (fun a => decide (key a = q)) =
      if key x = q then x :: l.filter (fun a => decide (key a = q))
      else l.filter (fun a => decide (key a = q)) := by
  induction l with
  | nil =>
    by_cases hx : key x = q <;> simp [insertByDesc, hx]
  | cons y ys ih =>
    by_cases hlt : key x < key y
    · rw [insertByDesc, if_pos hlt]
      by_cases hy : key y = q
      · have hx : ¬key x = q := by
          intro hx
          rw [hx, hy] at hlt
          exact lt_irrefl q hlt
        simp [List.filter_cons, hy, hx, ih]
      · simp [List.filter_cons, hy, ih]
    · rw [insertByDesc, if_neg hlt]
      by_cases hx : key x = q <;> simp [List.filter_cons, hx]

theorem pairwise_stableSortByDesc {α : Type} (key : α → ℚ) (l : List α) :
    (stableSortByDesc key l).Pairwise (fun a b => key b ≤ key a) := by
  induction l with
  | nil => simp [stableSortByDesc]
  | cons x xs ih => exact pairwise_insertByDesc key x _ ih

theorem perm_stableSortByDesc {α : Type} (key : α → ℚ) (l : List α) :
    (stableSortByDesc key l).Perm l := by
  induction l with
  | nil => simp [stableSortByDesc]
  | cons x xs ih =>
    exact (perm_insertByDesc key x _).trans (ih.cons x)

theorem length_stableSortByDesc {α : Type} (key : α → ℚ) (l : List α) :
    (stableSortByDesc key l).length = l.length :=
  (perm_stableSortByDesc key l).length_eq

theorem filter_stableSortByDesc {α : Type} (key : α → ℚ) (q : ℚ) (l : List α) :
    (stableSortByDesc key l).filter (fun a => decide (key a = q)) =
      l.filter (fun a => decide (key a = q)) := by
  induction l with
  | nil => simp [stableSortByDesc]
  | cons x xs ih =>
    rw [stableSortByDesc, filter_insertByDesc]
    by_cases hx : key x = q <;> simp [List.filter_cons, hx, ih]

/-! Helper lemmas about priority assignment and score folding. -/

theorem priorities_enumFrom (l : List Recommendation) :
    ∀ n : Nat,
      ((List.enumFrom n l).map
        (fun p => ({ p.2 with priority := p.1 + 1 } : Recommendation))).map
          (fun r => r.priority) = List.range' (n + 1) l.length := by
  induction l with
  | nil => intro n; simp
  | cons x xs ih =>
    intro n
    simp only [List.enumFrom, List.map_cons, List.length_cons, List.range']
    exact congrArg (List.cons (n + 1)) (ih (n + 1))

theorem impacts_enumFrom (l : List Recommendation) :
    ∀ n : Nat,
      ((List.enumFrom n l).map
        (fun p => ({ p.2 with priority := p.1 + 1 } : Recommendation))).map
          (fun r => r.impact) = l.map (fun r => r.impact) := by
  induction l with
  | nil => intro n; simp
  | cons x xs ih =>
    intro n
    simp only [List.enumFrom, List.map_cons]
    exact congrArg (List.cons x.impact) (ih (n + 1))

theorem foldl_add_map {α : Type} (f : α → ℚ) (l : List α) (a : ℚ) :
    l.foldl (fun sum x => sum + f x) a = a + (l.map f).sum := by
  induction l generalizing a with
  | nil => simp
  | cons x xs ih =>
    simp only [List.foldl_cons, List.map_cons, List.sum_cons, ih]
    ring

/-! Lemmas about the result map of `aggregateScores`. -/

theorem lookup_buildResultMap (rs : List SubIssueResult) (i : String) :
    List.lookup i (buildResultMap rs) =
      (rs.filter (fun r => decide (r.id = i))).getLast? := by
  induction rs using List.reverseRecOn with
  | nil => simp [buildResultMap]
  | append_singleton rs r ih =>
    have hstep : buildResultMap (rs ++ [r]) =
        jsMapSet (buildResultMap rs) r.id r := by
      unfold buildResultMap
      rw [List.foldl_append]
      rfl
    rw [hstep, lookup_jsMapSet, List.filter_append]
    by_cases hid : r.id = i
    · rw [if_pos hid.symm]
      have : List.filter (fun r => decide (r.id = i)) [r] = [r] := by
        simp [List.filter, hid]
      rw [this, List.getLast?_concat]
    · have hne : ¬i = r.id := fun hh => hid hh.symm
      rw [if_neg hne]
      have : List.filter (fun r => decide (r.id = i)) [r] = [] := by
        simp [List.filter, hid]
      rw [this, List.append_nil, ih]

theorem resolveSubIssue_congr (r1 r2 : List SubIssueResult)
    (h : ∀ k, List.lookup k (buildResultMap r1) =
      List.lookup k (buildResultMap r2)) :
    resolveSubIssue (buildResultMap r1) = resolveSubIssue (buildResultMap r2) := by
  funext si
  unfold resolveSubIssue
  rw [h si.id]

theorem aggregateScoresWith_congr (cats : List CategoryDef)
    (r1 r2 : List SubIssueResult)
    (h : ∀ k, List.lookup k (buildResultMap r1) =
      List.lookup k (buildResultMap r2)) :
    aggregateScoresWith cats r1 = aggregateScoresWith cats r2 := by
  have hres := resolveSubIssue_congr r1 r2 h
  have hcat : categoryResultFor (buildResultMap r1) =
      categoryResultFor (buildResultMap r2) := by
    funext cat
    unfold categoryResultFor
    rw [hres]
  simp only [aggregateScoresWith]
  rw [hcat]

theorem getLast?_append_cons {α : Type} (A : List α) (b : α) (B : List α) :
    (A ++ b :: B).getLast? = (b :: B).getLast? :=
  List.getLast?_append_of_ne_nil A (List.cons_ne_nil b B)

/-- C9: the aggregator is deterministic — `aggregateScores` is a pure
function of its input list, so equal inputs give the same category
results, the same overall score, and the same recommendation list. -/
theorem aggregateScores_deterministic (r1 r2 : List SubIssueResult)
    (h : r1 = r2) :
    (aggregateScores r1).categories = (aggregateScores r2).categories ∧
    (aggregateScores r1).overallScore = (aggregateScores r2).overallScore ∧
    (aggregateScores r1).recommendations =
      (aggregateScores r2).recommendations := by
  subst h
  exact ⟨rfl, rfl, rfl⟩

/-- Witness for C9 at a concrete one-element input. -/
theorem aggregateScores_deterministic_witness :
    ([⟨"1.3", 1, [], "ok", false⟩] : List SubIssueResult) =
      [⟨"1.3", 1, [], "ok", false⟩] ∧
    ((aggregateScores [⟨"1.3", 1, [], "ok", false⟩]).categories =
      (aggregateScores [⟨"1.3", 1, [], "ok", false⟩]).categories ∧
    (aggregateScores [⟨"1.3", 1, [], "ok", false⟩]).overallScore =
      (aggregateScores [⟨"1.3", 1, [], "ok", false⟩]).overallScore ∧
    (aggregateScores [⟨"1.3", 1, [], "ok", false⟩]).recommendations =
      (aggregateScores [⟨"1.3", 1, [], "ok", false⟩]).recommendations) :=
  ⟨rfl, aggregateScores_deterministic _ _ rfl⟩

/-- C10: when two results share an id, the later occurrence wins — the
aggregation output is unchanged when the earlier occurrence is deleted,
and the result-map lookup for that id is decided entirely by the part of
the input from the last occurrence on. -/
theorem aggregateScores_last_duplicate_wins (cats : List CategoryDef)
    (pre mid post : List SubIssueResult) (x y : SubIssueResult)
    (h : x.id = y.id) :
    aggregateScoresWith cats (pre ++ x :: (mid ++ y :: post)) =
      aggregateScoresWith cats (pre ++ (mid ++ y :: post)) ∧
    List.lookup x.id (buildResultMap (pre ++ x :: (mid ++ y :: post))) =
      ((y :: post).filter (fun r => decide (r.id = x.id))).getLast? := by
  constructor
  · apply aggregateScoresWith_congr
    intro k
    rw [lookup_buildResultMap, lookup_buildResultMap]
    by_cases hxk : x.id = k
    · have hyk : y.id = k := h.symm.trans hxk
      have hfx : List.filter (fun r => decide (r.id = k))
            (x :: (mid ++ y :: post)) =
          x :: List.filter (fun r => decide (r.id = k)) (mid ++ y :: post) := by
        simp [List.filter_cons, hxk]
      have hfy : List.filter (fun r => decide (r.id = k)) (y :: post) =
          y :: List.filter (fun r => decide (r.id = k)) post := by
        simp [List.filter_cons, hyk]
      rw [List.filter_append, List.filter_append, hfx, List.filter_append, hfy,
        getLast?_append_cons, ← List.cons_append, ← List.append_assoc,
        getLast?_append_cons, getLast?_append_cons]
    · have hfx : List.filter (fun r => decide (r.id = k))
            (x :: (mid ++ y :: post)) =
          List.filter (fun r => decide (r.id = k)) (mid ++ y :: post) := by
        simp [List.filter_cons, hxk]
      rw [List.filter_append, List.filter_append, hfx]
  · rw [lookup_buildResultMap]
    have hfx : List.filter (fun r => decide (r.id = x.id))
          (x :: (mid ++ y :: post)) =
        x :: List.filter (fun r => decide (r.id = x.id)) (mid ++ y :: post) := by
      simp [List.filter_cons]
    have hfy : List.filter (fun r => decide (r.id = x.id)) (y :: post) =
        y :: List.filter (fun r => decide (r.id = x.id)) post := by
      simp [List.filter_cons, h.symm]
    rw [List.filter_append, hfx, List.filter_append, hfy,
      getLast?_append_cons, ← List.cons_append, getLast?_append_cons]

/-- Witness for C10: two results with id 1.1, the second scoring 1. -/
theorem aggregateScores_last_duplicate_wins_witness :
    (⟨"1.1", 0, [], "first", false⟩ : SubIssueResult).id =
      (⟨"1.1", 1, [], "second", false⟩ : SubIssueResult).id ∧
    (aggregateScoresWith categories
        ([] ++ (⟨"1.1", 0, [], "first", false⟩ : SubIssueResult) ::
          ([] ++ (⟨"1.1", 1, [], "second", false⟩ : SubIssueResult) :: [])) =
      aggregateScoresWith categories
        ([] ++ ([] ++ (⟨"1.1", 1, [], "second", false⟩ : SubIssueResult) :: [])) ∧
    List.lookup (⟨"1.1", 0, [], "first", false⟩ : SubIssueResult).id
        (buildResultMap
          ([] ++ (⟨"1.1", 0, [], "first", false⟩ : SubIssueResult) ::
            ([] ++ (⟨"1.1", 1, [], "second", false⟩ : SubIssueResult) :: []))) =
      (((⟨"1.1", 1, [], "second", false⟩ : SubIssueResult) :: []).filter
        (fun r => decide (r.id =
          (⟨"1.1", 0, [], "first", false⟩ : SubIssueResult).id))).getLast?) :=
  ⟨rfl, aggregateScores_last_duplicate_wins categories [] [] [] _ _ rfl⟩

/-! Rounding helper lemmas. -/

theorem round2_zero : round2 0 = 0 := by
  unfold round2 jsRound
  have h : ⌊(0 : ℚ) * 100 + 1 / 2⌋ = 0 := by
    norm_num [Int.floor_eq_iff]
  rw [h]
  norm_num

theorem round2_ten : round2 10 = 10 := by
  unfold round2 jsRound
  have h : ⌊(10 : ℚ) * 100 + 1 / 2⌋ = 1000 := by
    norm_num [Int.floor_eq_iff]
  rw [h]
  norm_num

/-- Sum of the evaluated contributions when every score is 1: each of
the `n` sub-issues contributes `10 / n` points. -/
theorem sum_perfect_scores (l : List SubIssueResult)
    (hall : ∀ si ∈ l, si.score = 1) :
    (l.map (fun si => si.score * (10 / (l.length : ℚ)))).sum =
      (l.length : ℚ) * (10 / (l.length : ℚ)) := by
  have h1 := List.eq_replicate_of_mem
    (l := l.map (fun si => si.score * (10 / (l.length : ℚ))))
    (a := (10 : ℚ) / (l.length : ℚ))
    (by
      intro b hb
      rcases List.mem_map.mp hb with ⟨si, hsi, rfl⟩
      rw [hall si hsi, one_mul])
  rw [List.length_map] at h1
  rw [h1, List.sum_replicate, nsmul_eq_mul]

/-- C3: per-category aggregation.  A sub-issue id absent from the result
map resolves to the excluded placeholder with score 0 and summary "Not
evaluated"; a category with no evaluated sub-issues scores 0; otherwise
the category score is the sum of `score * (10 / n)` over the `n`
evaluated sub-issues, rounded to two decimals; and a category whose
sub-issues all resolve as evaluated with score 1 scores exactly 10. -/
theorem aggregateScores_category_scoring :
    (∀ (m : List (String × SubIssueResult)) (si : SubIssueDef),
      List.lookup si.id m = none →
        resolveSubIssue m si = ⟨si.id, 0, [], "Not evaluated", true⟩) ∧
    (∀ (m : List (String × SubIssueResult)) (cat : CategoryDef),
      (cat.subIssues.map (resolveSubIssue m)).filter
          (fun si => !si.excluded) = [] →
        (categoryResultFor m cat).score = 0) ∧
    (∀ (m : List (String × SubIssueResult)) (cat : CategoryDef),
      (cat.subIssues.map (resolveSubIssue m)).filter
          (fun si => !si.excluded) ≠ [] →
        (categoryResultFor m cat).score =
          round2 ((((cat.subIssues.map (resolveSubIssue m)).filter
            (fun si => !si.excluded)).map (fun si =>
              si.score * (10 / ((((cat.subIssues.map
                (resolveSubIssue m)).filter
                  (fun si => !si.excluded)).length : ℚ))))).sum)) ∧
    (∀ (m : List (String × SubIssueResult)) (cat : CategoryDef),
      cat.subIssues ≠ [] →
      (∀ si ∈ cat.subIssues.map (resolveSubIssue m),
        si.excluded = false ∧ si.score = 1) →
      (categoryResultFor m cat).score = 10) := by
  have hscore : ∀ (m : List (String × SubIssueResult)) (cat : CategoryDef),
      (cat.subIssues.map (resolveSubIssue m)).filter
          (fun si => !si.excluded) ≠ [] →
        (categoryResultFor m cat).score =
          round2 ((((cat.subIssues.map (resolveSubIssue m)).filter
            (fun si => !si.excluded)).map (fun si =>
              si.score * (10 / ((((cat.subIssues.map
                (resolveSubIssue m)).filter
                  (fun si => !si.excluded)).length : ℚ))))).sum) := by
    intro m cat hne
    have hpos : 0 < ((cat.subIssues.map (resolveSubIssue m)).filter
        (fun si => !si.excluded)).length := List.length_pos.mpr hne
    simp only [categoryResultFor, if_pos hpos]
    rw [foldl_add_map]
    rw [zero_add]
  refine ⟨?_, ?_, hscore, ?_⟩
  · intro m si h
    unfold resolveSubIssue
    rw [h]
    rfl
  · intro m cat h
    simp only [categoryResultFor, h]
    norm_num [round2_zero]
  · intro m cat hne hall
    have hfilter : (cat.subIssues.map (resolveSubIssue m)).filter
        (fun si => !si.excluded) = cat.subIssues.map (resolveSubIssue m) := by
      apply List.filter_eq_self.mpr
      intro si hsi
      simp [(hall si hsi).1]
    have hmapne : cat.subIssues.map (resolveSubIssue m) ≠ [] := by
      intro hc
      exact hne (List.map_eq_nil_iff.mp hc)
    have hne2 : (cat.subIssues.map (resolveSubIssue m)).filter
        (fun si => !si.excluded) ≠ [] := by
      rw [hfilter]
      exact hmapne
    rw [hscore m cat hne2, hfilter]
    rw [sum_perfect_scores (cat.subIssues.map (resolveSubIssue m))
      (fun si hsi => (hall si hsi).2)]
    have hlen : 0 < (cat.subIssues.map (resolveSubIssue m)).length :=
      List.length_pos.mpr hmapne
    have hcast : ((cat.subIssues.map (resolveSubIssue m)).length : ℚ) ≠ 0 := by
      exact_mod_cast Nat.pos_iff_ne_zero.mp hlen
    have h10 : ((cat.subIssues.map (resolveSubIssue m)).length : ℚ) *
        ((10 : ℚ) / ((cat.subIssues.map (resolveSubIssue m)).length : ℚ)) =
          10 := by
      have hc2 : ((cat.subIssues.length : ℚ)) ≠ 0 := by simpa using hcast
      field_simp
    rw [h10]
    exact round2_ten

/-- Witness for C3: a two-sub-issue category whose results both score 1
aggregates to exactly 10. -/
theorem aggregateScores_category_scoring_witness :
    (⟨1, "C", [⟨"a", "A"⟩, ⟨"b", "B"⟩]⟩ : CategoryDef).subIssues ≠ [] ∧
    (∀ si ∈ (⟨1, "C", [⟨"a", "A"⟩, ⟨"b", "B"⟩]⟩ : CategoryDef).subIssues.map
        (resolveSubIssue (buildResultMap
          [⟨"a", 1, [], "s", false⟩, ⟨"b", 1, [], "s", false⟩])),
      si.excluded = false ∧ si.score = 1) ∧
    (categoryResultFor
        (buildResultMap [⟨"a", 1, [], "s", false⟩, ⟨"b", 1, [], "s", false⟩])
        (⟨1, "C", [⟨"a", "A"⟩, ⟨"b", "B"⟩]⟩ : CategoryDef)).score = 10 :=
  ⟨by decide, by decide,
    aggregateScores_category_scoring.2.2.2 _ _ (by decide) (by decide)⟩

/-- Threshold filterMap: keeping the below-0.8 sub-issues and mapping
them is the same as the source's `continue`-style loop. -/
theorem filterMap_threshold {β : Type} (f : SubIssueResult → β)
    (l : List SubIssueResult) :
    l.filterMap (fun si => if si.score ≥ 0.8 then none else some (f si)) =
      (l.filter (fun si => decide (si.score < 0.8))).map f := by
  induction l with
  | nil => rfl
  | cons x xs ih =>
    by_cases hx : x.score ≥ 0.8
    · have hlt : ¬x.score < 0.8 := not_lt.mpr hx
      simp [List.filterMap_cons, List.filter_cons, hx, hlt, ih]
    · have hlt : x.score < 0.8 := lt_of_not_ge hx
      simp [List.filterMap_cons, List.filter_cons, hx, hlt, ih]

/-- C5 (amended): a recommendation is generated exactly for each
evaluated sub-issue scoring strictly below 0.8 (0.8 itself generates
none), in category order; its impact is the potential gain
`(1 - score) * (10 / n)` rounded to two decimals, with `n` the evaluated
count of the sub-issue's own category; its message is the first
finding's message when findings exist, otherwise the summary. -/
theorem generateRecommendations_per_subissue :
    (∀ (cats : List CategoryDef) (cat : CategoryResult),
      recsForCategory cats cat =
        ((cat.subIssues.filter (fun si => !si.excluded)).filter
          (fun si => decide (si.score < 0.8))).map
            (recOfSubIssue cats cat.name
              ((cat.subIssues.filter (fun si => !si.excluded)).length))) ∧
    (∀ (cats : List CategoryDef) (catName : String) (n : Nat)
        (si : SubIssueResult),
      (recOfSubIssue cats catName n si).impact =
        round2 ((1 - si.score) * (10 / (n : ℚ)))) ∧
    (∀ (cats : List CategoryDef) (catName : String) (n : Nat)
        (si : SubIssueResult) (f : Finding) (fs : List Finding),
      si.findings = f :: fs →
        (recOfSubIssue cats catName n si).message = f.message) ∧
    (∀ (cats : List CategoryDef) (catName : String) (n : Nat)
        (si : SubIssueResult),
      si.findings = [] →
        (recOfSubIssue cats catName n si).message = si.summary) := by
  refine ⟨?_, ?_, ?_, ?_⟩
  · intro cats cat
    unfold recsForCategory
    exact filterMap_threshold _ _
  · intro cats catName n si
    unfold recOfSubIssue
    cases si.findings <;> rfl
  · intro cats catName n si f fs h
    unfold recOfSubIssue
    rw [h]
  · intro cats catName n si h
    unfold recOfSubIssue
    rw [h]

/-- Witness for C5 at a sub-issue with one finding. -/
theorem generateRecommendations_per_subissue_witness :
    (⟨"1.1", 0, [⟨"f.ts", none, "fix it", Severity.warning, none⟩],
        "sum", false⟩ : SubIssueResult).findings =
      (⟨"f.ts", none, "fix it", Severity.warning, none⟩ : Finding) :: [] ∧
    (recOfSubIssue categories ("Consistent Patterns") 1
      ⟨"1.1", 0, [⟨"f.ts", none, "fix it", Severity.warning, none⟩],
        "sum", false⟩).message = "fix it" :=
  ⟨rfl, generateRecommendations_per_subissue.2.2.1 categories
    ("Consistent Patterns") 1 _ _ _ rfl⟩

/-- C5 counterexample: the stored impact is the rounded value, not the
raw potential gain — a lone evaluated sub-issue scoring 1/3 produces a
recommendation whose impact is 6.67, while `(1 - 1/3) * (10 / 1)` is
20/3 = 6.666... . -/
theorem recommendation_impact_rounded_counterexample :
    (recOfSubIssue categories ("Consistent Patterns") 1
        ⟨"1.1", 1/3, [], "needs structure work", false⟩).impact =
      667 / 100 ∧
    ¬((667 : ℚ) / 100 = (1 - (1 : ℚ)/3) * (10 / ((1 : Nat) : ℚ))) := by
  constructor
  · show round2 ((1 - (1 : ℚ)/3) * (10 / ((1 : Nat) : ℚ))) = 667 / 100
    unfold round2 jsRound
    have hx : ((1 : ℚ) - 1/3) * (10 / ((1 : Nat) : ℚ)) * 100 + 1/2 =
        4003 / 6 := by
      push_cast
      norm_num
    rw [hx]
    have hfl : ⌊(4003 : ℚ) / 6⌋ = 667 := by
      norm_num [Int.floor_eq_iff]
    rw [hfl]
    norm_num
  · push_cast
    norm_num

/-- Taking a prefix of `range'` truncates the count. -/
theorem take_range'_min : ∀ (n m s : Nat),
    (List.range' s n).take m = List.range' s (min n m) := by
  intro n
  induction n with
  | zero => intro m s; simp
  | succ n ih =>
    intro m s
    cases m with
    | zero => simp
    | succ m =>
      simp only [List.range'_succ, List.take_succ_cons, Nat.succ_min_succ]
      rw [ih m (s + 1)]

/-- C6: the recommendation list of `generateRecommendations` is the
stable descending sort of the pooled per-category recommendations,
truncated to 30, with dense priorities: its length is
`min 30 (pool size)`, its priorities are exactly `1..length`, its
impacts are descending, and the sort preserves the input order of
recommendations with equal impact (stability). -/
theorem generateRecommendations_ranking (cats : List CategoryDef)
    (categoryResults : List CategoryResult) :
    (generateRecommendations cats categoryResults).length =
      min 30 (categoryResults.flatMap (recsForCategory cats)).length ∧
    (generateRecommendations cats categoryResults).map (fun r => r.priority) =
      List.range' 1 (generateRecommendations cats categoryResults).length ∧
    ((generateRecommendations cats categoryResults).map
      (fun r => r.impact)).Pairwise (fun a b => b ≤ a) ∧
    (∀ q : ℚ,
      (stableSortByDesc (fun r => r.impact)
        (categoryResults.flatMap (recsForCategory cats))).filter
          (fun r => decide (r.impact = q)) =
      (categoryResults.flatMap (recsForCategory cats)).filter
        (fun r => decide (r.impact = q))) := by
  have hrec : generateRecommendations cats categoryResults =
      ((stableSortByDesc (fun r => r.impact)
        (categoryResults.flatMap (recsForCategory cats))).enum.map
          (fun p => { p.2 with priority := p.1 + 1 })).take 30 := rfl
  have hlen : (generateRecommendations cats categoryResults).length =
      min 30 (categoryResults.flatMap (recsForCategory cats)).length := by
    rw [hrec, List.length_take, List.length_map, List.enum_length,
      length_stableSortByDesc]
  have henum : (stableSortByDesc (fun r : Recommendation => r.impact)
      (categoryResults.flatMap (recsForCategory cats))).enum =
    List.enumFrom 0 (stableSortByDesc (fun r : Recommendation => r.impact)
      (categoryResults.flatMap (recsForCategory cats))) := rfl
  refine ⟨hlen, ?_, ?_, ?_⟩
  · rw [hlen, hrec, List.map_take, henum, priorities_enumFrom,
      take_range'_min, length_stableSortByDesc, Nat.min_comm]
  · rw [hrec, List.map_take]
    apply List.Pairwise.sublist (List.take_sublist _ _)
    rw [henum, impacts_enumFrom, List.pairwise_map]
    exact pairwise_stableSortByDesc (fun r : Recommendation => r.impact) _
  · intro q
    exact filter_stableSortByDesc (fun r : Recommendation => r.impact) q _

/-! Lemmas about the import graph builder. -/

theorem mem_fileEdges_aux (imports : List ImportRec) :
    ∀ (s : List String) (t : String),
      t ∈ imports.foldl (fun s imp =>
        if startsWithDot imp.specifier then
          match imp.resolved with
          | some u => jsSetAdd s u
          | none => s
        else s) s ↔
      t ∈ s ∨ ∃ imp ∈ imports, startsWithDot imp.specifier = true ∧
        imp.resolved = some t := by
  induction imports with
  | nil => simp
  | cons imp imports ih =>
    intro s t
    simp only [List.foldl_cons]
    rw [ih]
    by_cases hdot : startsWithDot imp.specifier = true
    · cases hres : imp.resolved with
      | some u =>
        simp only [hdot, if_true, hres, mem_jsSetAdd, List.mem_cons]
        constructor
        · rintro (((ht | rfl) | ⟨imp2, h2, h3⟩))
          · exact Or.inl ht
          · exact Or.inr ⟨imp, Or.inl rfl, hdot, hres⟩
          · exact Or.inr ⟨imp2, Or.inr h2, h3⟩
        · rintro (ht | ⟨imp2, (rfl | h2), h3, h4⟩)
          · exact Or.inl (Or.inl ht)
          · rw [hres] at h4
            exact Or.inl (Or.inr (Option.some_injective _ h4).symm)
          · exact Or.inr ⟨imp2, h2, h3, h4⟩
      | none =>
        simp only [hdot, if_true, hres, List.mem_cons]
        constructor
        · rintro (ht | ⟨imp2, h2, h3⟩)
          · exact Or.inl ht
          · exact Or.inr ⟨imp2, Or.inr h2, h3⟩
        · rintro (ht | ⟨imp2, (rfl | h2), h3, h4⟩)
          · exact Or.inl ht
          · rw [hres] at h4
            cases h4
          · exact Or.inr ⟨imp2, h2, h3, h4⟩
    · have hd : startsWithDot imp.specifier = false := Bool.eq_false_iff.mpr hdot
      simp only [hd, Bool.false_eq_true, if_false, List.mem_cons]
      constructor
      · rintro (ht | ⟨imp2, h2, h3⟩)
        · exact Or.inl ht
        · exact Or.inr ⟨imp2, Or.inr h2, h3⟩
      · rintro (ht | ⟨imp2, (rfl | h2), h3, h4⟩)
        · exact Or.inl ht
        · rw [hd] at h3
          cases h3
        · exact Or.inr ⟨imp2, h2, h3, h4⟩

theorem nodup_fileEdges_aux (imports : List ImportRec) :
    ∀ s : List String, s.Nodup →
      (imports.foldl (fun s imp =>
        if startsWithDot imp.specifier then
          match imp.resolved with
          | some u => jsSetAdd s u
          | none => s
        else s) s).Nodup := by
  induction imports with
  | nil => intro s hs; exact hs
  | cons imp imports ih =>
    intro s hs
    simp only [List.foldl_cons]
    apply ih
    by_cases hdot : startsWithDot imp.specifier = true
    · cases hres : imp.resolved with
      | some u => simp only [hdot, if_true, hres]; exact nodup_jsSetAdd s u hs
      | none => simpa only [hdot, if_true, hres]
    · have hd : startsWithDot imp.specifier = false := Bool.eq_false_iff.mpr hdot
      simpa only [hd, Bool.false_eq_true, if_false]

theorem foldl_jsMapSet_fresh :
    ∀ (files : List SourceFileRec) (acc : ImportGraph),
      (∀ f ∈ files, ∀ p ∈ acc, p.1 ≠ f.path) →
      (files.map (fun f => f.path)).Nodup →
      files.foldl (fun g f => jsMapSet g f.path (fileEdges f)) acc =
        acc ++ files.map (fun f => (f.path, fileEdges f))
  | [], acc, _, _ => by simp
  | f :: files, acc, hdisj, hnd => by
    simp only [List.foldl_cons, List.map_cons]
    rw [jsMapSet_of_fresh acc f.path (fileEdges f)
      (fun p hp => hdisj f (List.mem_cons_self f files) p hp)]
    have hnd2 : (files.map (fun f => f.path)).Nodup :=
      (List.nodup_cons.mp (by simpa using hnd)).2
    have hnotin : f.path ∉ files.map (fun f => f.path) :=
      (List.nodup_cons.mp (by simpa using hnd)).1
    rw [foldl_jsMapSet_fresh files (acc ++ [(f.path, fileEdges f)]) ?_ hnd2]
    · rw [List.append_assoc, List.singleton_append]
    · intro g hg p hp
      rcases List.mem_append.mp hp with hp | hp
      · exact hdisj g (List.mem_cons_of_mem f hg) p hp
      · rcases List.mem_singleton.mp hp with rfl
        intro hc
        have hc2 : f.path = g.path := hc
        apply hnotin
        rw [hc2]
        exact List.mem_map_of_mem _ hg

theorem buildImportGraph_eq_map (files : List SourceFileRec)
    (h : (files.map (fun f => f.path)).Nodup) :
    buildImportGraph files = files.map (fun f => (f.path, fileEdges f)) := by
  unfold buildImportGraph
  rw [foldl_jsMapSet_fresh files [] (by simp) h, List.nil_append]

theorem lookup_map_path :
    ∀ (files : List SourceFileRec) (f : SourceFileRec), f ∈ files →
      (files.map (fun f => f.path)).Nodup →
      List.lookup f.path (files.map (fun f => (f.path, fileEdges f))) =
        some (fileEdges f)
  | [], f, hf, _ => absurd hf (List.not_mem_nil f)
  | g :: files, f, hf, hnd => by
    rcases List.mem_cons.mp hf with rfl | hf
    · simp [lookup_cons']
    · have hnotin : g.path ∉ files.map (fun f => f.path) :=
        (List.nodup_cons.mp (by simpa using hnd)).1
      have hne : ¬f.path = g.path := by
        intro hc
        apply hnotin
        rw [← hc]
        exact List.mem_map_of_mem _ hf
      rw [List.map_cons, lookup_cons', if_neg hne]
      exact lookup_map_path files f hf
        (List.nodup_cons.mp (by simpa using hnd)).2

/-- C2 (amended): for files with distinct paths, `buildImportGraph` has
exactly one key per input file in input order; each file maps to its
edge set; edges are deduplicated; and a target appears as an edge
exactly when some relative (`.`-prefixed) import of the file resolves to
it — external and unresolved imports are dropped, while a resolved
self-reference is kept. -/
theorem buildImportGraph_shape (files : List SourceFileRec)
    (h : (files.map (fun f => f.path)).Nodup) :
    (buildImportGraph files).map (fun p => p.1) =
      files.map (fun f => f.path) ∧
    (∀ f ∈ files, List.lookup f.path (buildImportGraph files) =
      some (fileEdges f)) ∧
    (∀ f : SourceFileRec, (fileEdges f).Nodup) ∧
    (∀ (f : SourceFileRec) (t : String),
      t ∈ fileEdges f ↔ ∃ imp ∈ f.imports,
        startsWithDot imp.specifier = true ∧ imp.resolved = some t) := by
  refine ⟨?_, ?_, ?_, ?_⟩
  · rw [buildImportGraph_eq_map files h, List.map_map]
    rfl
  · intro f hf
    rw [buildImportGraph_eq_map files h]
    exact lookup_map_path files f hf h
  · intro f
    exact nodup_fileEdges_aux f.imports [] List.nodup_nil
  · intro f t
    unfold fileEdges
    rw [mem_fileEdges_aux]
    simp

/-- Witness for C2 at `sampleFiles`. -/
theorem buildImportGraph_shape_witness :
    ((sampleFiles.map (fun f => f.path)).Nodup) ∧
    ((buildImportGraph sampleFiles).map (fun p => p.1) =
        sampleFiles.map (fun f => f.path) ∧
      (∀ f ∈ sampleFiles, List.lookup f.path (buildImportGraph sampleFiles) =
        some (fileEdges f)) ∧
      (∀ f : SourceFileRec, (fileEdges f).Nodup) ∧
      (∀ (f : SourceFileRec) (t : String),
        t ∈ fileEdges f ↔ ∃ imp ∈ f.imports,
          startsWithDot imp.specifier = true ∧ imp.resolved = some t)) :=
  ⟨by decide, buildImportGraph_shape sampleFiles (by decide)⟩

/-- C2 counterexample: a file whose relative import resolves to itself
gets a self-edge — the built graph lists `a.ts` as a direct dependency
of `a.ts`, so the no-self-dependency part of the claim is false. -/
theorem buildImportGraph_self_edge_counterexample :
    List.lookup ("a.ts")
        (buildImportGraph [⟨"a.ts", [⟨"./a", some ("a.ts")⟩], 0, 0⟩]) =
      some ["a.ts"] ∧
    "a.ts" ∈ graphDeps
      (buildImportGraph [⟨"a.ts", [⟨"./a", some ("a.ts")⟩], 0, 0⟩])
      ("a.ts") := by
  constructor
  · decide
  · decide

/-- Score field of `analyzeCircularDeps`, unfolded. -/
theorem analyzeCircularDeps_score (g : ImportGraph) :
    (analyzeCircularDeps g).score =
      max 0 (min 1 (if 0 < g.length then
        max 0 (1 - ((findCycles g).flatten.dedup.length : ℚ) /
          (g.length : ℚ) * 5)
      else 1)) := rfl

/-- C1 counterexample: on A→B→C→A the detector collects three cycles
(the same loop once per start node, since `visited` is cleared before
each start), not one. -/
theorem findCycles_triangle_counterexample :
    (findCycles gTriangle).length = 3 ∧
    ¬((findCycles gTriangle).length = 1) := by
  decide

/-- C1 (amended): on A→B→C→A the detector reports exactly three cycles —
the rotations of the single loop, one per start node — each with file
set {A,B,C}; 3 of the 3 files are involved, and the sub-issue score is
`max(0, 1 − (3/3)·5) = 0`. -/
theorem analyzeCircularDeps_triangle :
    findCycles gTriangle =
      [["A.ts", "B.ts", "C.ts", "A.ts"],
       ["B.ts", "C.ts", "A.ts", "B.ts"],
       ["C.ts", "A.ts", "B.ts", "C.ts"]] ∧
    (∀ c ∈ findCycles gTriangle,
      c.Perm ["A.ts", "B.ts", "C.ts", c.headD ("")]) ∧
    (findCycles gTriangle).flatten.dedup.length = 3 ∧
    (analyzeCircularDeps gTriangle).score = 0 := by
  refine ⟨by decide, by decide, by decide, ?_⟩
  rw [analyzeCircularDeps_score]
  have h1 : (findCycles gTriangle).flatten.dedup.length = 3 := by decide
  have h2 : gTriangle.length = 3 := by decide
  rw [h1, h2]
  norm_num

/-- C4 (amended): when no file matches an entry pattern, the locality
sub-issue is still evaluated — it carries no `excluded` flag and is
scored 1 (the perfect score, from the `avgImports = 0 ≤ 5` bucket) with
no findings — rather than being skipped. -/
theorem analyzeFilesPerFeature_no_entries (g : ImportGraph)
    (h : entryFiles g = []) :
    (analyzeFilesPerFeature g).excluded = false ∧
    (analyzeFilesPerFeature g).score = 1 ∧
    (analyzeFilesPerFeature g).findings = [] := by
  unfold analyzeFilesPerFeature
  rw [h]
  exact ⟨rfl, rfl, rfl⟩

/-- Witness for C4 at the one-file graph. -/
theorem analyzeFilesPerFeature_no_entries_witness :
    entryFiles gNoEntries = [] ∧
    ((analyzeFilesPerFeature gNoEntries).excluded = false ∧
     (analyzeFilesPerFeature gNoEntries).score = 1 ∧
     (analyzeFilesPerFeature gNoEntries).findings = []) :=
  ⟨by decide, analyzeFilesPerFeature_no_entries gNoEntries (by decide)⟩

/-- C4 counterexample: with no entry files the sub-issue is not
neutral/skipped — `excluded` is false and it contributes a full
evaluated score of 1. -/
theorem analyzeFilesPerFeature_not_skipped_counterexample :
    entryFiles gNoEntries = [] ∧
    (analyzeFilesPerFeature gNoEntries).excluded = false ∧
    (analyzeFilesPerFeature gNoEntries).score = 1 := by
  decide

/-- Score field of `analyzeBarrelFiles`, unfolded. -/
theorem analyzeBarrelFiles_score_def (files : List SourceFileRec) :
    (analyzeBarrelFiles files).score =
      max 0 (min 1 (if 0 < files.length then
        max 0 (1 - ((files.filter
          (fun f => isIndexName f.path && isBarrel f)).length : ℚ) /
            (files.length : ℚ) * 10)
      else 1)) := rfl

/-- C8 counterexample: the barrel test requires at least one re-export.
An empty `index.ts` (0 statements, 0 export declarations) satisfies
`re-exports ≥ 50% of statements` (0 ≥ 0·0.5) yet is not flagged, so the
claim's "exactly when" is false there. -/
theorem isBarrel_zero_statements_counterexample :
    isBarrel ⟨"index.ts", [], 0, 0⟩ = false ∧
    ((0 : ℚ) ≥ (0 : ℚ) * 0.5) ∧
    ¬(isBarrel ⟨"index.ts", [], 0, 0⟩ = true ↔
      ((0 : ℚ) ≥ (0 : ℚ) * 0.5)) := by
  have h1 : isBarrel ⟨"index.ts", [], 0, 0⟩ = false := rfl
  have h2 : (0 : ℚ) ≥ (0 : ℚ) * 0.5 := by norm_num
  refine ⟨h1, h2, ?_⟩
  intro hiff
  rw [h1] at hiff
  simp only [Bool.false_eq_true, false_iff] at hiff
  exact hiff h2

/-- C8 (amended): an index-named file is flagged as a barrel exactly
when it has at least one export declaration and its export declarations
are at least 50% of its statements (so exactly 50% is flagged and 40% is
not); the sub-issue score is `max(0, 1 − (barrels/total)·10)`, and it
hits 0 as soon as barrels reach 10% of the files. -/
theorem analyzeBarrelFiles_threshold :
    (∀ f : SourceFileRec, isBarrel f = true ↔
      0 < f.exportDeclCount ∧ f.stmtCount ≤ 2 * f.exportDeclCount) ∧
    isBarrel ⟨"index.ts", [], 2, 4⟩ = true ∧
    isBarrel ⟨"index.ts", [], 2, 5⟩ = false ∧
    (∀ files : List SourceFileRec, files ≠ [] →
      (analyzeBarrelFiles files).score =
        max 0 (1 - ((files.filter
          (fun f => isIndexName f.path && isBarrel f)).length : ℚ) /
            (files.length : ℚ) * 10)) ∧
    (∀ files : List SourceFileRec, files ≠ [] →
      (files.length : ℚ) ≤ ((files.filter
          (fun f => isIndexName f.path && isBarrel f)).length : ℚ) * 10 →
      (analyzeBarrelFiles files).score = 0) := by
  have hiff : ∀ f : SourceFileRec, isBarrel f = true ↔
      0 < f.exportDeclCount ∧ f.stmtCount ≤ 2 * f.exportDeclCount := by
    intro f
    unfold isBarrel
    rw [Bool.and_eq_true, decide_eq_true_eq, decide_eq_true_eq]
    constructor
    · rintro ⟨h1, h2⟩
      refine ⟨h1, ?_⟩
      rw [ge_iff_le, show (0.5 : ℚ) = 1/2 by norm_num] at h2
      have h3 : (f.stmtCount : ℚ) ≤ 2 * (f.exportDeclCount : ℚ) := by
        linarith
      exact_mod_cast h3
    · rintro ⟨h1, h2⟩
      refine ⟨h1, ?_⟩
      have h3 : (f.stmtCount : ℚ) ≤ 2 * (f.exportDeclCount : ℚ) := by
        exact_mod_cast h2
      rw [ge_iff_le, show (0.5 : ℚ) = 1/2 by norm_num]
      linarith
  have hscore : ∀ files : List SourceFileRec, files ≠ [] →
      (analyzeBarrelFiles files).score =
        max 0 (1 - ((files.filter
          (fun f => isIndexName f.path && isBarrel f)).length : ℚ) /
            (files.length : ℚ) * 10) := by
    intro files hne
    have hpos : 0 < files.length := List.length_pos.mpr hne
    rw [analyzeBarrelFiles_score_def, if_pos hpos]
    have hXle : (1 - ((files.filter
        (fun f => isIndexName f.path && isBarrel f)).length : ℚ) /
          (files.length : ℚ) * 10) ≤ 1 := by
      have : (0 : ℚ) ≤ ((files.filter
          (fun f => isIndexName f.path && isBarrel f)).length : ℚ) /
            (files.length : ℚ) * 10 := by positivity
      linarith
    have hmax1 : max (0 : ℚ) (1 - ((files.filter
        (fun f => isIndexName f.path && isBarrel f)).length : ℚ) /
          (files.length : ℚ) * 10) ≤ 1 :=
      max_le (by norm_num) hXle
    rw [min_eq_right hmax1, ← max_assoc, max_self]
  refine ⟨hiff, ?_, ?_, hscore, ?_⟩
  · rw [hiff]
    exact ⟨by decide, by decide⟩
  · rw [Bool.eq_false_iff]
    intro hc
    have := (hiff _).mp hc
    exact absurd this.2 (by decide)
  · intro files hne hbig
    rw [hscore files hne]
    have hpos : (0 : ℚ) < (files.length : ℚ) := by
      exact_mod_cast List.length_pos.mpr hne
    have hdiv : (1 : ℚ) ≤ ((files.filter
        (fun f => isIndexName f.path && isBarrel f)).length : ℚ) /
          (files.length : ℚ) * 10 := by
      rw [div_mul_eq_mul_div, le_div_iff₀ hpos, one_mul]
      linarith
    have : (1 - ((files.filter
        (fun f => isIndexName f.path && isBarrel f)).length : ℚ) /
          (files.length : ℚ) * 10) ≤ 0 := by
      linarith
    exact max_eq_left this

/-- Witness for C8: a project of one half-re-export index file and one
ordinary file. -/
theorem analyzeBarrelFiles_threshold_witness :
    ([⟨"index.ts", [], 2, 4⟩, ⟨"util.ts", [], 0, 9⟩] :
      List SourceFileRec) ≠ [] ∧
    (analyzeBarrelFiles [⟨"index.ts", [], 2, 4⟩, ⟨"util.ts", [], 0, 9⟩]).score =
      max 0 (1 - ((([⟨"index.ts", [], 2, 4⟩, ⟨"util.ts", [], 0, 9⟩] :
        List SourceFileRec).filter
          (fun f => isIndexName f.path && isBarrel f)).length : ℚ) /
            ((([⟨"index.ts", [], 2, 4⟩, ⟨"util.ts", [], 0, 9⟩] :
              List SourceFileRec)).length : ℚ) * 10) :=
  ⟨by decide, analyzeBarrelFiles_threshold.2.2.2.1 _ (by decide)⟩

/-! Lemmas for the depth analyzer on acyclic graphs. -/

theorem mem_keys_of_lookup_some :
    ∀ (g : ImportGraph) (f : String) (l : List String),
      List.lookup f g = some l → f ∈ graphKeys g
  | [], f, l, h => by simp [List.lookup] at h
  | p :: g, f, l, h => by
    rcases p with ⟨a, b⟩
    by_cases hf : f = a
    · subst hf
      exact List.mem_cons_self _ _
    · rw [lookup_cons', if_neg hf] at h
      exact List.mem_cons_of_mem _ (mem_keys_of_lookup_some g f l h)

theorem val_mem_of_lookup_some :
    ∀ (g : ImportGraph) (f : String) (l : List String),
      List.lookup f g = some l → l ∈ g.map (fun p => p.2)
  | [], f, l, h => by simp [List.lookup] at h
  | p :: g, f, l, h => by
    rcases p with ⟨a, b⟩
    by_cases hf : f = a
    · subst hf
      rw [lookup_cons', if_pos rfl] at h
      rw [List.map_cons]
      exact (Option.some_injective _ h) ▸ List.mem_cons_self _ _
    · rw [lookup_cons', if_neg hf] at h
      exact List.mem_cons_of_mem _ (val_mem_of_lookup_some g f l h)

theorem mem_keys_of_deps_ne_nil (g : ImportGraph) (f : String)
    (h : graphDeps g f ≠ []) : f ∈ graphKeys g := by
  unfold graphDeps at h
  cases hl : List.lookup f g with
  | none => rw [hl] at h; simp at h
  | some l => exact mem_keys_of_lookup_some g f l hl

theorem mem_graphNodes_of_dep (g : ImportGraph) (u v : String)
    (h : v ∈ graphDeps g u) : v ∈ graphNodes g := by
  unfold graphDeps at h
  cases hl : List.lookup u g with
  | none => rw [hl] at h; simp at h
  | some l =>
    rw [hl] at h
    simp only [Option.getD_some] at h
    unfold graphNodes
    rw [List.mem_dedup]
    apply List.mem_append_right
    rw [List.mem_flatten]
    exact ⟨l, val_mem_of_lookup_some g u l hl, h⟩

theorem nodeRank_lt_of_dep (g : ImportGraph) (r : String → Nat)
    (hr : ∀ u ∈ graphKeys g, ∀ v ∈ graphDeps g u, r v < r u)
    (u v : String) (h : v ∈ graphDeps g u) :
    nodeRank g r v < nodeRank g r u := by
  have hne : graphDeps g u ≠ [] := fun hc => by simp [hc] at h
  have hu : u ∈ graphKeys g := mem_keys_of_deps_ne_nil g u hne
  have hrv : r v < r u := hr u hu v h
  have hvnodes : v ∈ graphNodes g := mem_graphNodes_of_dep g u v h
  unfold nodeRank
  rw [← List.countP_eq_length_filter, ← List.countP_eq_length_filter]
  have hperm := List.perm_cons_erase hvnodes
  rw [hperm.countP_eq, hperm.countP_eq]
  rw [List.countP_cons, List.countP_cons]
  rw [if_neg (by simp : ¬(decide (r v < r v) = true)),
    if_pos (by simp [hrv] : decide (r v < r u) = true)]
  have hle : List.countP (fun x => decide (r x < r v))
      ((graphNodes g).erase v) ≤
    List.countP (fun x => decide (r x < r u)) ((graphNodes g).erase v) := by
    apply List.countP_mono_left
    intro x _ hx
    simp only [decide_eq_true_eq] at hx ⊢
    exact hx.trans hrv
  omega

theorem nodeRank_le_card (g : ImportGraph) (r : String → Nat) (f : String) :
    nodeRank g r f ≤ (graphNodes g).length :=
  List.length_filter_le _ _

theorem depthSpec_stable (g : ImportGraph) (r : String → Nat)
    (hr : ∀ u ∈ graphKeys g, ∀ v ∈ graphDeps g u, r v < r u) :
    ∀ N f, nodeRank g r f < N →
      depthSpec g N f = depthSpec g (nodeRank g r f + 1) f := by
  intro N
  induction N using Nat.strong_induction_on with
  | _ N ih =>
    intro f hf
    match N, hf with
    | N + 1, hf =>
      simp only [depthSpec]
      by_cases hdeps : (graphDeps g f).isEmpty
      · rw [if_pos hdeps, if_pos hdeps]
      · rw [if_neg hdeps, if_neg hdeps]
        congr 1
        apply congrArg (fun l => List.foldl max 0 l)
        apply List.map_congr_left
        intro dep hdep
        have hrank : nodeRank g r dep < nodeRank g r f :=
          nodeRank_lt_of_dep g r hr f dep hdep
        have e1 : depthSpec g N dep =
            depthSpec g (nodeRank g r dep + 1) dep :=
          ih N (Nat.lt_succ_self N) dep (by omega)
        have e2 : depthSpec g (nodeRank g r f) dep =
            depthSpec g (nodeRank g r dep + 1) dep :=
          ih (nodeRank g r f) hf dep hrank
        rw [e1, e2]

theorem trueDepth_leaf (g : ImportGraph) (r : String → Nat) (f : String)
    (h : graphDeps g f = []) : trueDepth g r f = 0 := by
  unfold trueDepth
  simp only [depthSpec, h]
  rfl

theorem trueDepth_node (g : ImportGraph) (r : String → Nat)
    (hr : ∀ u ∈ graphKeys g, ∀ v ∈ graphDeps g u, r v < r u)
    (f : String) (h : graphDeps g f ≠ []) :
    trueDepth g r f =
      1 + ((graphDeps g f).map (trueDepth g r)).foldl max 0 := by
  unfold trueDepth
  simp only [depthSpec]
  have hie : (graphDeps g f).isEmpty = false := by
    simpa [List.isEmpty_iff]
  rw [hie]
  simp only [Bool.false_eq_true, if_false]
  congr 1
  apply congrArg (fun l => List.foldl max 0 l)
  apply List.map_congr_left
  intro dep hdep
  exact depthSpec_stable g r hr (nodeRank g r f) dep
    (nodeRank_lt_of_dep g r hr f dep hdep)

theorem getDepthFold_nil (g : ImportGraph) (N : Nat)
    (acc : Nat × List String × List (String × Nat)) :
    getDepthFold g N [] acc = acc := rfl

theorem getDepthFold_cons (g : ImportGraph) (N : Nat) (dep : String)
    (deps : List String) (acc : Nat × List String × List (String × Nat)) :
    getDepthFold g N (dep :: deps) acc =
      getDepthFold g N deps
        (max acc.1 (getDepth g N dep acc.2.1 acc.2.2).1,
         (getDepth g N dep acc.2.1 acc.2.2).2.1,
         (getDepth g N dep acc.2.1 acc.2.2).2.2) := rfl

theorem getDepth_unfold (g : ImportGraph) (N : Nat) (file : String)
    (vis : List String) (dp : List (String × Nat)) :
    getDepth g (N + 1) file vis dp =
      if vis.contains file then (0, vis, dp)
      else
        match List.lookup file dp with
        | some d => (d, vis, dp)
        | none =>
          if (graphDeps g file).isEmpty then
            (0, vis ++ [file], jsMapSet dp file 0)
          else
            ((getDepthFold g N (graphDeps g file) (0, vis ++ [file], dp)).1 + 1,
             (getDepthFold g N (graphDeps g file)
               (0, vis ++ [file], dp)).2.1.erase file,
             jsMapSet
               (getDepthFold g N (graphDeps g file) (0, vis ++ [file], dp)).2.2
               file
               ((getDepthFold g N (graphDeps g file)
                 (0, vis ++ [file], dp)).1 + 1)) := rfl

theorem getDepthFold_correct (g : ImportGraph) (r : String → Nat) (N : Nat)
    (hcall : ∀ f vis dp, nodeRank g r f < N → DepthInv g r dp →
      (∀ x ∈ vis, nodeRank g r f < nodeRank g r x ∨
        List.lookup x dp = some 0) →
      GetDepthContract g r N f vis dp) :
    ∀ (deps : List String), (∀ dep ∈ deps, nodeRank g r dep < N) →
    ∀ (m : Nat) (vis : List String) (dp : List (String × Nat)),
      DepthInv g r dp →
      (∀ x ∈ vis, (∀ dep ∈ deps, nodeRank g r dep < nodeRank g r x) ∨
        List.lookup x dp = some 0) →
      (getDepthFold g N deps (m, vis, dp)).1 =
        deps.foldl (fun a dep => max a (trueDepth g r dep)) m ∧
      (∃ ext, (getDepthFold g N deps (m, vis, dp)).2.1 = vis ++ ext ∧
        ∀ x ∈ ext,
          List.lookup x (getDepthFold g N deps (m, vis, dp)).2.2 = some 0) ∧
      (∀ x d, List.lookup x dp = some d →
        List.lookup x (getDepthFold g N deps (m, vis, dp)).2.2 = some d) ∧
      DepthInv g r (getDepthFold g N deps (m, vis, dp)).2.2
  | [], _, m, vis, dp, hinv, _ => by
    rw [getDepthFold_nil]
    exact ⟨rfl, ⟨[], by simp, fun x hx => absurd hx (List.not_mem_nil x)⟩,
      fun x d h => h, hinv⟩
  | dep :: deps, hdepsN, m, vis, dp, hinv, hvis => by
    have hvisdep : ∀ x ∈ vis, nodeRank g r dep < nodeRank g r x ∨
        List.lookup x dp = some 0 := by
      intro x hx
      rcases hvis x hx with h | h
      · exact Or.inl (h dep (List.mem_cons_self _ _))
      · exact Or.inr h
    have hc := hcall dep vis dp (hdepsN dep (List.mem_cons_self _ _))
      hinv hvisdep
    obtain ⟨hfst, ⟨ext, hvis', hext⟩, hmono, hinv', -⟩ := hc
    have hpre : ∀ x ∈ vis ++ ext,
        (∀ d ∈ deps, nodeRank g r d < nodeRank g r x) ∨
          List.lookup x (getDepth g N dep vis dp).2.2 = some 0 := by
      intro x hx
      rcases List.mem_append.mp hx with hx | hx
      · rcases hvis x hx with h | h
        · exact Or.inl (fun d hd => h d (List.mem_cons_of_mem _ hd))
        · exact Or.inr (hmono x 0 h)
      · exact Or.inr (hext x hx)
    have hih := getDepthFold_correct g r N hcall deps
      (fun d hd => hdepsN d (List.mem_cons_of_mem _ hd))
      (max m (trueDepth g r dep)) (vis ++ ext)
      (getDepth g N dep vis dp).2.2 hinv' hpre
    rw [getDepthFold_cons]
    dsimp only
    rw [hfst, hvis']
    obtain ⟨ihfst, ⟨ext2, ihvis, ihext⟩, ihmono, ihinv⟩ := hih
    refine ⟨?_, ⟨ext ++ ext2, ?_, ?_⟩, ?_, ihinv⟩
    · rw [ihfst, List.foldl_cons]
    · rw [ihvis, List.append_assoc]
    · intro x hx
      rcases List.mem_append.mp hx with hx | hx
      · exact ihmono x 0 (hext x hx)
      · exact ihext x hx
    · intro x d h
      exact ihmono x d (hmono x d h)

theorem getDepth_correct (g : ImportGraph) (r : String → Nat)
    (hr : ∀ u ∈ graphKeys g, ∀ v ∈ graphDeps g u, r v < r u) :
    ∀ (N : Nat) (f : String) (vis : List String) (dp : List (String × Nat)),
      nodeRank g r f < N → DepthInv g r dp →
      (∀ x ∈ vis, nodeRank g r f < nodeRank g r x ∨
        List.lookup x dp = some 0) →
      GetDepthContract g r N f vis dp := by
  intro N
  induction N with
  | zero =>
    intro f vis dp hN
    exact absurd hN (Nat.not_lt_zero _)
  | succ N ih =>
    intro f vis dp hN hinv hvis
    unfold GetDepthContract
    rw [getDepth_unfold]
    by_cases hfvis : vis.contains f = true
    · rw [if_pos hfvis]
      have hf : f ∈ vis := by simpa using hfvis
      rcases hvis f hf with hlt | hmemo
      · exact absurd hlt (lt_irrefl _)
      · have htd : trueDepth g r f = 0 := (hinv f 0 hmemo).symm
        dsimp only
        exact ⟨htd.symm, ⟨[], by simp, fun x hx => absurd hx (List.not_mem_nil x)⟩,
          fun x d h => h, hinv, fun hnf => absurd hf hnf⟩
    · rw [if_neg hfvis]
      have hf : f ∉ vis := fun hc => hfvis (by simpa using hc)
      cases hlook : List.lookup f dp with
      | some d =>
        dsimp only
        exact ⟨hinv f d hlook,
          ⟨[], by simp, fun x hx => absurd hx (List.not_mem_nil x)⟩,
          fun x d' h => h, hinv,
          fun _ => hlook.trans (congrArg some (hinv f d hlook))⟩
      | none =>
        by_cases hdeps : (graphDeps g f).isEmpty = true
        · rw [if_pos hdeps]
          dsimp only
          have hdepsnil : graphDeps g f = [] := by
            simpa [List.isEmpty_iff] using hdeps
          have htd : trueDepth g r f = 0 := trueDepth_leaf g r f hdepsnil
          refine ⟨htd.symm, ⟨[f], rfl, ?_⟩, ?_, ?_, ?_⟩
          · intro x hx
            rcases List.mem_singleton.mp hx with rfl
            rw [lookup_jsMapSet, if_pos rfl]
          · intro x d h
            rw [lookup_jsMapSet]
            by_cases hx : x = f
            · subst hx
              rw [hlook] at h
              cases h
            · rw [if_neg hx]
              exact h
          · intro x d h
            rw [lookup_jsMapSet] at h
            by_cases hx : x = f
            · subst hx
              rw [if_pos rfl] at h
              cases h
              exact htd.symm
            · rw [if_neg hx] at h
              exact hinv x d h
          · intro _
            rw [lookup_jsMapSet, if_pos rfl, htd]
        · rw [if_neg hdeps]
          have hdepsne : graphDeps g f ≠ [] := by
            intro hc
            exact hdeps (by simp [hc])
          have hranklt : ∀ dep ∈ graphDeps g f,
              nodeRank g r dep < nodeRank g r f :=
            fun dep hdep => nodeRank_lt_of_dep g r hr f dep hdep
          have hdepsN : ∀ dep ∈ graphDeps g f, nodeRank g r dep < N :=
            fun dep hdep =>
              lt_of_lt_of_le (hranklt dep hdep) (Nat.lt_succ_iff.mp hN)
          have hpre : ∀ x ∈ vis ++ [f],
              (∀ dep ∈ graphDeps g f,
                nodeRank g r dep < nodeRank g r x) ∨
              List.lookup x dp = some 0 := by
            intro x hx
            rcases List.mem_append.mp hx with hx | hx
            · rcases hvis x hx with h | h
              · exact Or.inl (fun dep hdep => (hranklt dep hdep).trans h)
              · exact Or.inr h
            · rcases List.mem_singleton.mp hx with rfl
              exact Or.inl hranklt
          have hfold := getDepthFold_correct g r N
            (fun f' vis' dp' h1 h2 h3 => ih f' vis' dp' h1 h2 h3)
            (graphDeps g f) hdepsN 0 (vis ++ [f]) dp hinv hpre
          obtain ⟨ffst, ⟨ext, fvis, fext⟩, fmono, finv⟩ := hfold
          have htd := trueDepth_node g r hr f hdepsne
          have hfold1 : (getDepthFold g N (graphDeps g f)
              (0, vis ++ [f], dp)).1 =
              ((graphDeps g f).map (trueDepth g r)).foldl max 0 := by
            rw [ffst, List.foldl_map]
          have hfnotin : f ∉ ext := by
            intro hfe
            have h0 := finv f 0 (fext f hfe)
            rw [htd] at h0
            omega
          dsimp only
          refine ⟨?_, ⟨ext, ?_, ?_⟩, ?_, ?_, ?_⟩
          · rw [hfold1, htd]
            omega
          · rw [fvis, List.append_assoc, List.singleton_append,
              List.erase_append_right _ hf, List.erase_cons_head]
          · intro x hx
            rw [lookup_jsMapSet]
            by_cases hxf : x = f
            · subst hxf
              exact absurd hx hfnotin
            · rw [if_neg hxf]
              exact fext x hx
          · intro x d h
            rw [lookup_jsMapSet]
            by_cases hxf : x = f
            · subst hxf
              rw [hlook] at h
              cases h
            · rw [if_neg hxf]
              exact fmono x d h
          · intro x d h
            rw [lookup_jsMapSet] at h
            by_cases hxf : x = f
            · subst hxf
              rw [if_pos rfl] at h
              cases h
              rw [htd, ← hfold1]
              omega
            · rw [if_neg hxf] at h
              exact finv x d h
          · intro _
            rw [lookup_jsMapSet, if_pos rfl]
            refine congrArg some ?_
            rw [hfold1, htd]
            omega

theorem computeDepths_fold_correct (g : ImportGraph) (r : String → Nat)
    (hr : ∀ u ∈ graphKeys g, ∀ v ∈ graphDeps g u, r v < r u) :
    ∀ (l : List (String × List String)) (dp : List (String × Nat)),
      DepthInv g r dp →
      DepthInv g r (l.foldl (fun depths p =>
        (getDepth g ((graphNodes g).length + 1) p.1 [] depths).2.2) dp) ∧
      (∀ x d, List.lookup x dp = some d →
        List.lookup x (l.foldl (fun depths p =>
          (getDepth g ((graphNodes g).length + 1) p.1 [] depths).2.2) dp) =
            some d) ∧
      (∀ p ∈ l, List.lookup p.1 (l.foldl (fun depths p =>
        (getDepth g ((graphNodes g).length + 1) p.1 [] depths).2.2) dp) =
          some (trueDepth g r p.1))
  | [], dp, hinv =>
    ⟨hinv, fun x d h => h, fun p hp => absurd hp (List.not_mem_nil p)⟩
  | p :: l, dp, hinv => by
    simp only [List.foldl_cons]
    have hc := getDepth_correct g r hr ((graphNodes g).length + 1) p.1 [] dp
      (Nat.lt_succ_of_le (nodeRank_le_card g r p.1)) hinv
      (fun x hx => absurd hx (List.not_mem_nil x))
    obtain ⟨-, -, hmono, hinv', hself⟩ := hc
    have hmem := hself (List.not_mem_nil p.1)
    have hih := computeDepths_fold_correct g r hr l
      (getDepth g ((graphNodes g).length + 1) p.1 [] dp).2.2 hinv'
    obtain ⟨ihinv, ihmono, ihmem⟩ := hih
    refine ⟨ihinv, ?_, ?_⟩
    · intro x d h
      exact ihmono x d (hmono x d h)
    · intro q hq
      rcases List.mem_cons.mp hq with rfl | hq
      · exact ihmono q.1 _ hmem
      · exact ihmem q hq

theorem computeDepths_correct (g : ImportGraph) (r : String → Nat)
    (hr : ∀ u ∈ graphKeys g, ∀ v ∈ graphDeps g u, r v < r u) :
    ∀ f ∈ graphKeys g,
      List.lookup f (computeDepths g) = some (trueDepth g r f) := by
  intro f hf
  unfold computeDepths
  have h := computeDepths_fold_correct g r hr g []
    (fun x d hxd => by simp [List.lookup] at hxd)
  rcases List.mem_map.mp hf with ⟨p, hp, rfl⟩
  exact h.2.2 p hp

/-- C7: on every acyclic import graph (witnessed by an edge-decreasing
measure `r`), the depth map computed by `analyzeMaxImportDepth`'s
`getDepth` loop assigns to every key its canonical depth, which is 0 for
a file with no outgoing edges and `1 + max` over the direct dependency
depths otherwise; on the diamond A→{B,C}, B→D, C→D the computed depths
are D=0, B=C=1, A=2, with no double counting at the reconvergence. -/
theorem analyzeMaxImportDepth_depths (g : ImportGraph) (r : String → Nat)
    (hr : ∀ u ∈ graphKeys g, ∀ v ∈ graphDeps g u, r v < r u) :
    (∀ f, graphDeps g f = [] → trueDepth g r f = 0) ∧
    (∀ f, graphDeps g f ≠ [] →
      trueDepth g r f =
        1 + ((graphDeps g f).map (trueDepth g r)).foldl max 0) ∧
    (∀ f ∈ graphKeys g,
      List.lookup f (computeDepths g) = some (trueDepth g r f)) ∧
    (List.lookup ("D.ts") (computeDepths gDiamond) = some 0 ∧
     List.lookup ("B.ts") (computeDepths gDiamond) = some 1 ∧
     List.lookup ("C.ts") (computeDepths gDiamond) = some 1 ∧
     List.lookup ("A.ts") (computeDepths gDiamond) = some 2) :=
  ⟨fun f h => trueDepth_leaf g r f h,
   fun f h => trueDepth_node g r hr f h,
   computeDepths_correct g r hr,
   by decide⟩

/-- Witness for C7 at the diamond graph. -/
theorem analyzeMaxImportDepth_depths_witness :
    (∀ u ∈ graphKeys gDiamond, ∀ v ∈ graphDeps gDiamond u,
      rDiamond v < rDiamond u) ∧
    ((∀ f, graphDeps gDiamond f = [] → trueDepth gDiamond rDiamond f = 0) ∧
     (∀ f, graphDeps gDiamond f ≠ [] →
       trueDepth gDiamond rDiamond f =
         1 + ((graphDeps gDiamond f).map
           (trueDepth gDiamond rDiamond)).foldl max 0) ∧
     (∀ f ∈ graphKeys gDiamond,
       List.lookup f (computeDepths gDiamond) =
         some (trueDepth gDiamond rDiamond f)) ∧
     (List.lookup ("D.ts") (computeDepths gDiamond) = some 0 ∧
      List.lookup ("B.ts") (computeDepths gDiamond) = some 1 ∧
      List.lookup ("C.ts") (computeDepths gDiamond) = some 1 ∧
      List.lookup ("A.ts") (computeDepths gDiamond) = some 2)) :=
  ⟨by decide, analyzeMaxImportDepth_depths gDiamond rDiamond (by decide)⟩

/-- Witness for C1 at the first reported cycle of the triangle. -/
theorem analyzeCircularDeps_triangle_witness :
    (["A.ts", "B.ts", "C.ts", "A.ts"] : List String) ∈ findCycles gTriangle ∧
    (["A.ts", "B.ts", "C.ts", "A.ts"] : List String).Perm
      ["A.ts", "B.ts", "C.ts",
        (["A.ts", "B.ts", "C.ts", "A.ts"] : List String).headD ("")] :=
  ⟨by decide, analyzeCircularDeps_triangle.2.1 _ (by decide)⟩
